import Mathlib

/-!
Shallow embedding of the signal / backtest / trade-plan core of a
crypto-futures trading bot (src/main.py).  Prices are modelled as rationals.
A missing floating-point value (a pandas NaN) is modelled as `none`, and any
comparison against a missing value is `false`, matching IEEE NaN comparison
semantics.  The indicator columns themselves are produced by the external
library pandas_ta, which is not part of this repository; those computations
are modelled from the specification (section 4.1) and are marked as such.
-/

namespace CryptoBot

/-- Direction of a trading signal.  The source uses the strings LONG and
SHORT, and Python `None` for "no signal" (modelled as `none` in
`Option Sig`). -/
inductive Sig
  | LONG
  | SHORT
  deriving DecidableEq, Repr

/-- One OHLCV candle, as produced by `fetch_klines` (src/main.py 58-72). -/
structure Candle where
  open_time : ℤ
  «open»    : ℚ
  high      : ℚ
  low       : ℚ
  close     : ℚ
  volume    : ℚ
  deriving DecidableEq, Repr, Inhabited

/-- A pandas DataFrame as the bot uses it: the candle columns plus the
indicator and signal columns that `generate_signals` adds in place.  A column
that has not been created yet is `none`. -/
structure DF where
  candles  : List Candle
  EMA_fast : Option (List (Option ℚ)) := none
  EMA_slow : Option (List (Option ℚ)) := none
  RSI      : Option (List (Option ℚ)) := none
  ATR      : Option (List (Option ℚ)) := none
  signal   : Option (List (Option Sig)) := none
  deriving DecidableEq, Repr

/-- Float comparison `a < b` under NaN semantics: any comparison involving a
missing value is false. -/
def oLT : Option ℚ → Option ℚ → Bool
  | some x, some y => decide (x < y)
  | _, _ => false

/-- Modelled from the spec: the exponential moving average that the source
obtains from `ta.ema` (pandas_ta, not part of this repository).  Undefined
for the first `period - 1` indices, seeded at index `period - 1` with the
simple average of the first `period` closes, then
`ema[i] = close[i] * k + ema[i-1] * (1 - k)` with `k = 2 / (period + 1)`
(spec section 4.1). -/
def emaAt (period : ℕ) (closes : List ℚ) : ℕ → Option ℚ
  | 0 => if period = 1 then some (closes.getD 0 0) else none
  | i + 1 =>
    if i + 2 < period then none
    else if i + 2 = period then some ((closes.take period).sum / period)
    else (emaAt period closes i).map fun prev =>
      closes.getD (i + 1) 0 * (2 / ((period : ℚ) + 1)) +
        prev * (1 - 2 / ((period : ℚ) + 1))

/-- Modelled from the spec: an EMA column aligned 1:1 with the candles. -/
def emaList (period : ℕ) (closes : List ℚ) : List (Option ℚ) :=
  (List.range closes.length).map (emaAt period closes)

/-- Modelled from the spec: closing-price delta gain at index `i`
(0 at index 0, where no previous close exists). -/
def gainAt (closes : List ℚ) : ℕ → ℚ
  | 0 => 0
  | j + 1 => max (closes.getD (j + 1) 0 - closes.getD j 0) 0

/-- Modelled from the spec: closing-price delta loss at index `i`. -/
def lossAt (closes : List ℚ) : ℕ → ℚ
  | 0 => 0
  | j + 1 => max (closes.getD j 0 - closes.getD (j + 1) 0) 0

/-- Modelled from the spec: Wilder-style smoothed average of a delta series,
undefined for indices below `period`, seeded at index `period` with the
simple average of the first `period` deltas. -/
def wilderAvg (g : ℕ → ℚ) (period : ℕ) : ℕ → Option ℚ
  | 0 => none
  | i + 1 =>
    if i + 1 < period then none
    else if i + 1 = period then
      some ((((List.range period).map fun j => g (j + 1)).sum) / period)
    else (wilderAvg g period i).map fun prev =>
      (prev * ((period : ℚ) - 1) + g (i + 1)) / period

/-- Modelled from the spec: RSI from average gain over average loss, bounded
in [0,100]; 100 when the average loss is zero.  The source obtains this from
`ta.rsi` (pandas_ta, not part of this repository). -/
def rsiAt (closes : List ℚ) (period i : ℕ) : Option ℚ :=
  match wilderAvg (gainAt closes) period i, wilderAvg (lossAt closes) period i with
  | some ag, some al =>
    if al = 0 then some 100 else some (100 - 100 / (1 + ag / al))
  | _, _ => none

/-- Modelled from the spec: the RSI column aligned 1:1 with the candles. -/
def rsiList (period : ℕ) (closes : List ℚ) : List (Option ℚ) :=
  (List.range closes.length).map (rsiAt closes period)

/-- Modelled from the spec: the true range of bar `i`. -/
def trueRange (candles : List Candle) : ℕ → ℚ
  | 0 =>
    let c := candles.getD 0 default
    c.high - c.low
  | j + 1 =>
    let c := candles.getD (j + 1) default
    let pc := (candles.getD j default).close
    max (c.high - c.low) (max |c.high - pc| |c.low - pc|)

/-- Modelled from the spec: the ATR value at index `i` — a rolling average of
the true range, undefined for indices below `period`.  The source obtains
this from `ta.atr` (pandas_ta, not part of this repository). -/
def atrAt (candles : List Candle) (period i : ℕ) : Option ℚ :=
  if i < period then none
  else some ((((List.range period).map fun j => trueRange candles (i - j)).sum) / period)

/-- Modelled from the spec: the ATR column aligned 1:1 with the candles. -/
def atrList (period : ℕ) (candles : List Candle) : List (Option ℚ) :=
  (List.range candles.length).map (atrAt candles period)

/-- One step of the labeling loop of `generate_signals` (src/main.py 82-87),
evaluated at row `i` of the frame: LONG when the fast EMA crossed above the
slow EMA and RSI is below 70, SHORT when it crossed below and RSI is above
30, and nothing otherwise.  Row 0 keeps the initial `None`. -/
def sigAt (ef es rs : List (Option ℚ)) (i : ℕ) : Option Sig :=
  if i = 0 then none
  else if oLT (ef.getD (i - 1) none) (es.getD (i - 1) none) &&
          oLT (es.getD i none) (ef.getD i none) &&
          oLT (rs.getD i none) (some 70) then
    some Sig.LONG
  else if oLT (es.getD (i - 1) none) (ef.getD (i - 1) none) &&
          oLT (ef.getD i none) (es.getD i none) &&
          oLT (some 30) (rs.getD i none) then
    some Sig.SHORT
  else
    none

/-- The signal column that the loop of `generate_signals` writes over an
`n`-row frame. -/
def signalColumn (ef es rs : List (Option ℚ)) (n : ℕ) : List (Option Sig) :=
  (List.range n).map (sigAt ef es rs)

/-- Embedding of `generate_signals` (src/main.py 75-88): sets the four indicator columns
and the signal column on the frame it was given — the column assignments and
`df.at` writes act on the caller frame in place — and returns that same
frame. -/
def generate_signals (df : DF) : DF :=
  let closes := df.candles.map Candle.close
  let ef := emaList 10 closes
  let es := emaList 30 closes
  let rs := rsiList 14 closes
  { df with
    EMA_fast := some ef
    EMA_slow := some es
    RSI := some rs
    ATR := some (atrList 14 df.candles)
    signal := some (signalColumn ef es rs closes.length) }

/-- Rows of the frame whose signal entry is not `None`, with their row index,
in frame order (`df.dropna(subset=["signal"])` in src/main.py 94). -/
def nonNullSignals (sig : List (Option Sig)) : List (ℕ × Sig) :=
  sig.enum.filterMap fun p => p.2.map fun s => (p.1, s)

/-- The last `lookback` signalled rows (`.tail(lookback)` in src/main.py 94). -/
def selectedSignals (sig : List (Option Sig)) (lookback : ℕ) : List (ℕ × Sig) :=
  let all := nonNullSignals sig
  all.drop (all.length - lookback)

/-- The number of scored signals, `len(signals)` in `calculate_win_rate`. -/
def sample_size (sig : List (Option Sig)) (lookback : ℕ) : ℕ :=
  (selectedSignals sig lookback).length

/-- One iteration of the scoring loop of `calculate_win_rate`
(src/main.py 96-100): the signal at row `i` wins when the next close moved in
the signalled direction; a missing next close (the NaN that `shift(-1)`
leaves on the last row) compares false. -/
def isWin (closes : List ℚ) (p : ℕ × Sig) : Bool :=
  match closes[p.1 + 1]? with
  | some np =>
    match p.2 with
    | Sig.LONG => decide (closes.getD p.1 0 < np)
    | Sig.SHORT => decide (np < closes.getD p.1 0)
  | none => false

/-- Round to the nearest integer with ties to even, as Python round does. -/
def roundHalfEven (q : ℚ) : ℤ :=
  if q - Rat.floor q < 1 / 2 then Rat.floor q
  else if 1 / 2 < q - Rat.floor q then Rat.floor q + 1
  else if Rat.floor q % 2 = 0 then Rat.floor q else Rat.floor q + 1

/-- Round to two decimal places, `round(x, 2)` in src/main.py 101. -/
def round2 (q : ℚ) : ℚ := (roundHalfEven (q * 100) : ℚ) / 100

/-- The scoring part of `calculate_win_rate` (src/main.py 94-101), a pure
function of the already-fetched, already-labelled frame. -/
def calculate_win_rate_core (closes : List ℚ) (sig : List (Option Sig))
    (lookback : ℕ) : ℚ :=
  let signals := selectedSignals sig lookback
  let wins := (signals.filter (isWin closes)).length
  if signals.length = 0 then 0
  else round2 ((wins : ℚ) / (signals.length : ℚ) * 100)

/-- Embedding of `calculate_win_rate` after its single `fetch_klines` call (src/main.py
93-101): label the fetched frame and score it. -/
def win_rate_of_candles (candles : List Candle) (lookback : ℕ) : ℚ :=
  let df := generate_signals { candles := candles }
  calculate_win_rate_core (df.candles.map Candle.close) (df.signal.getD []) lookback

/-- Embedding of `calculate_win_rate` (src/main.py 91-101), with the candle source
(`fetch_klines`; its argument is the `limit`, i.e. how many most recent
candles to return) passed as an oracle.  The one fetch at line 92 uses
`limit = lookback + 50`. -/
def calculate_win_rate (fetch : ℕ → List Candle) (lookback : ℕ) : ℚ :=
  win_rate_of_candles (fetch (lookback + 50)) lookback

/-- The dict that `analyze_trend` returns; the no-signal case is a dict whose
only entry is a `None` signal, so every other field is `none` there. -/
structure Plan where
  signal      : Option Sig := none
  entry       : Option ℚ := none
  stop_loss   : Option ℚ := none
  take_profit : Option ℚ := none
  rsi         : Option ℚ := none
  deriving DecidableEq, Repr

/-- The plan-building part of `analyze_trend` (src/main.py 106-121), as a
function of the labelled frame columns: take the last signalled row; with no
signalled row return the no-trade dict; the stop loss and the take profit
inherit a missing ATR, since NaN arithmetic propagates. -/
def analyze_trend_core (closes : List ℚ) (atrCol rsCol : List (Option ℚ))
    (sig : List (Option Sig)) : Plan :=
  match (nonNullSignals sig).getLast? with
  | none => {}
  | some (i, s) =>
    let entry := closes.getD i 0
    let d : ℚ := if s = Sig.LONG then 1 else -1
    { signal := some s
      entry := some entry
      stop_loss := (atrCol.getD i none).map fun a => entry - a * d
      take_profit := (atrCol.getD i none).map fun a => entry + a * 2 * d
      rsi := rsCol.getD i none }

/-- Embedding of `analyze_trend` (src/main.py 104-121). -/
def analyze_trend (df : DF) : Plan :=
  let df2 := generate_signals df
  analyze_trend_core (df2.candles.map Candle.close) (df2.ATR.getD [])
    (df2.RSI.getD []) (df2.signal.getD [])

/-- A constant one-price candle, used for concrete instances. -/
def candle0 : Candle :=
  { open_time := 0, «open» := 1, high := 1, low := 1, close := 1, volume := 1 }

/-- A one-row frame fresh from `fetch_klines`. -/
def dfOne : DF := { candles := [candle0] }

/-- A candle oracle returning one flat candle whatever the limit. -/
def fetchA : ℕ → List Candle := fun _ => [candle0]

/-- A candle oracle agreeing with `fetchA` only at limit 150. -/
def fetchB : ℕ → List Candle := fun n => if n = 150 then [candle0] else []

/-! ### Helper lemmas -/

theorem ratFloor_eq_intFloor (q : ℚ) : Rat.floor q = ⌊q⌋ := by
  rw [Rat.floor_def', Rat.floor_def]

theorem le_roundHalfEven {a : ℤ} {q : ℚ} (h : (a : ℚ) ≤ q) : a ≤ roundHalfEven q := by
  have hf : a ≤ ⌊q⌋ := Int.le_floor.mpr h
  unfold roundHalfEven
  rw [ratFloor_eq_intFloor]
  split_ifs <;> omega

theorem roundHalfEven_le {q : ℚ} {b : ℤ} (h : q ≤ (b : ℚ)) : roundHalfEven q ≤ b := by
  have hfb : ⌊q⌋ ≤ b := by
    have h2 := Int.floor_le_floor h
    simpa using h2
  have hfl : (⌊q⌋ : ℚ) ≤ q := Int.floor_le q
  unfold roundHalfEven
  rw [ratFloor_eq_intFloor]
  split_ifs with h1 h2 h3
  · exact hfb
  · have hlt : (⌊q⌋ : ℚ) < (b : ℚ) := by linarith
    have := Int.cast_lt.mp hlt
    omega
  · exact hfb
  · have heq : q - ⌊q⌋ = 1 / 2 := le_antisymm (not_lt.mp h2) (not_lt.mp h1)
    have hlt : (⌊q⌋ : ℚ) < (b : ℚ) := by linarith
    have := Int.cast_lt.mp hlt
    omega

theorem round2_nonneg {x : ℚ} (h : 0 ≤ x) : 0 ≤ round2 x := by
  unfold round2
  have h0 : (0 : ℤ) ≤ roundHalfEven (x * 100) := le_roundHalfEven (by push_cast; linarith)
  exact div_nonneg (by exact_mod_cast h0) (by norm_num)

theorem round2_le_hundred {x : ℚ} (h : x ≤ 100) : round2 x ≤ 100 := by
  unfold round2
  have h1 : roundHalfEven (x * 100) ≤ (10000 : ℤ) :=
    roundHalfEven_le (by push_cast; linarith)
  rw [div_le_iff₀ (by norm_num : (0 : ℚ) < 100)]
  calc ((roundHalfEven (x * 100) : ℤ) : ℚ) ≤ ((10000 : ℤ) : ℚ) := by exact_mod_cast h1
    _ = 100 * 100 := by norm_num

theorem getD_map_range {α : Type} (f : ℕ → α) {n i : ℕ} (h : i < n) (d : α) :
    ((List.range n).map f).getD i d = f i := by
  rw [List.getD_eq_getElem?_getD, List.getElem?_map, List.getElem?_range h]
  rfl

theorem signalColumn_getD (ef es rs : List (Option ℚ)) {n i : ℕ} (h : i < n) :
    (signalColumn ef es rs n).getD i none = sigAt ef es rs i :=
  getD_map_range _ h _

theorem oLT_none_right (a : Option ℚ) : oLT a none = false := by cases a <;> rfl

theorem oLT_none_left (b : Option ℚ) : oLT none b = false := by cases b <;> rfl

theorem oLT_some_some (x y : ℚ) : oLT (some x) (some y) = decide (x < y) := rfl

theorem sigAt_eq (ef es rs : List (Option ℚ)) (i : ℕ) (hne : i ≠ 0)
    (efp esp efc esc rc : ℚ)
    (hefp : ef.getD (i - 1) none = some efp)
    (hesp : es.getD (i - 1) none = some esp)
    (hefc : ef.getD i none = some efc)
    (hesc : es.getD i none = some esc)
    (hrc : rs.getD i none = some rc) :
    sigAt ef es rs i =
      if efp < esp ∧ esc < efc ∧ rc < 70 then some Sig.LONG
      else if esp < efp ∧ efc < esc ∧ 30 < rc then some Sig.SHORT
      else none := by
  unfold sigAt
  rw [if_neg hne, hefp, hesp, hefc, hesc, hrc]
  simp only [oLT_some_some, Bool.and_eq_true, decide_eq_true_eq, and_assoc]

/-! ### C1: the crossover labeling rule -/

/-- C1: at every row `i ≥ 1` of the frame at which both rows have defined
fast and slow EMA and RSI values, the signal column holds LONG exactly when
the fast EMA crossed strictly above the slow EMA and RSI is below 70, SHORT
exactly when it crossed strictly below and RSI is above 30, and nothing in
every other case; row 0 is never labelled, and no row carries both
directions. -/
theorem signal_rule
    (ef es rs : List (Option ℚ)) (n i : ℕ) (hi : 1 ≤ i) (hn : i < n)
    (efp esp efc esc rc : ℚ)
    (hefp : ef.getD (i - 1) none = some efp)
    (hesp : es.getD (i - 1) none = some esp)
    (hefc : ef.getD i none = some efc)
    (hesc : es.getD i none = some esc)
    (_hrp : rs.getD (i - 1) none ≠ none)
    (hrc : rs.getD i none = some rc) :
    ((signalColumn ef es rs n).getD i none = some Sig.LONG ↔
        efp < esp ∧ esc < efc ∧ rc < 70) ∧
    ((signalColumn ef es rs n).getD i none = some Sig.SHORT ↔
        esp < efp ∧ efc < esc ∧ 30 < rc) ∧
    (¬(efp < esp ∧ esc < efc ∧ rc < 70) → ¬(esp < efp ∧ efc < esc ∧ 30 < rc) →
      (signalColumn ef es rs n).getD i none = none) ∧
    (signalColumn ef es rs n).getD 0 none = none ∧
    ¬((signalColumn ef es rs n).getD i none = some Sig.LONG ∧
      (signalColumn ef es rs n).getD i none = some Sig.SHORT) := by
  have h0 : (0 : ℕ) < n := by omega
  have hne : i ≠ 0 := by omega
  have hv := signalColumn_getD ef es rs hn
  rw [sigAt_eq ef es rs i hne efp esp efc esc rc hefp hesp hefc hesc hrc] at hv
  have hv0 : (signalColumn ef es rs n).getD 0 none = none := by
    rw [signalColumn_getD ef es rs h0]
    rfl
  rw [hv, hv0]
  refine ⟨?_, ?_, ?_, rfl, ?_⟩
  · by_cases hc1 : efp < esp ∧ esc < efc ∧ rc < 70
    · rw [if_pos hc1]
      exact iff_of_true rfl hc1
    · rw [if_neg hc1]
      refine iff_of_false ?_ hc1
      by_cases hc2 : esp < efp ∧ efc < esc ∧ 30 < rc
      · rw [if_pos hc2]
        simp
      · rw [if_neg hc2]
        simp
  · by_cases hc1 : efp < esp ∧ esc < efc ∧ rc < 70
    · rw [if_pos hc1]
      refine iff_of_false (by simp) ?_
      rintro ⟨h1, -, -⟩
      exact (lt_asymm hc1.1) h1
    · rw [if_neg hc1]
      by_cases hc2 : esp < efp ∧ efc < esc ∧ 30 < rc
      · rw [if_pos hc2]
        exact iff_of_true rfl hc2
      · rw [if_neg hc2]
        exact iff_of_false (by simp) hc2
  · intro hc1 hc2
    rw [if_neg hc1, if_neg hc2]
  · rintro ⟨hL, hS⟩
    rw [hL] at hS
    simp at hS

/-- Witness for C1 at a concrete upward crossover. -/
theorem signal_rule_witness :
    (signalColumn [some 1, some 3] [some 2, some 2] [some 50, some 50] 2).getD 1 none
      = some Sig.LONG :=
  ((signal_rule [some 1, some 3] [some 2, some 2] [some 50, some 50] 2 1
      (by decide) (by decide) 1 2 3 2 50 rfl rfl rfl rfl (by decide) rfl).1).mpr
    (by norm_num)

/-! ### C2, C3: the backtest scoring -/

theorem win_rate_core_zero (closes : List ℚ) (sig : List (Option Sig)) (lookback : ℕ)
    (h : (selectedSignals sig lookback).length = 0) :
    calculate_win_rate_core closes sig lookback = 0 := by
  unfold calculate_win_rate_core
  rw [if_pos h]

theorem win_rate_core_formula (closes : List ℚ) (sig : List (Option Sig)) (lookback : ℕ)
    (h : 0 < (selectedSignals sig lookback).length) :
    calculate_win_rate_core closes sig lookback =
      round2 (100 * (((selectedSignals sig lookback).filter (isWin closes)).length : ℚ) /
        ((selectedSignals sig lookback).length : ℚ)) := by
  have hne : ¬ (selectedSignals sig lookback).length = 0 := by omega
  unfold calculate_win_rate_core
  rw [if_neg hne]
  congr 1
  ring

theorem isWin_of_no_next (closes : List ℚ) (p : ℕ × Sig)
    (h : closes[p.1 + 1]? = none) : isWin closes p = false := by
  simp [isWin, h]

/-- C2: the scoring loop counts a selected LONG row as a win exactly when the
next close exists and is higher, a SHORT row exactly when it exists and is
lower; the returned value is `100 * wins / sample_size` rounded to two
decimal places, it is 0 for an empty sample, and it always lies in
`[0, 100]` (it is a total rational value, never a NaN). -/
theorem win_rate_spec (closes : List ℚ) (sig : List (Option Sig)) (lookback : ℕ) :
    (sample_size sig lookback = 0 → calculate_win_rate_core closes sig lookback = 0) ∧
    (0 < sample_size sig lookback →
      calculate_win_rate_core closes sig lookback =
        round2 (100 * (((selectedSignals sig lookback).filter (isWin closes)).length : ℚ) /
          (sample_size sig lookback : ℚ))) ∧
    0 ≤ calculate_win_rate_core closes sig lookback ∧
    calculate_win_rate_core closes sig lookback ≤ 100 ∧
    ∀ p ∈ selectedSignals sig lookback,
      (p.2 = Sig.LONG → (isWin closes p = true ↔
        ∃ np, closes[p.1 + 1]? = some np ∧ closes.getD p.1 0 < np)) ∧
      (p.2 = Sig.SHORT → (isWin closes p = true ↔
        ∃ np, closes[p.1 + 1]? = some np ∧ np < closes.getD p.1 0)) := by
  have hw : ((selectedSignals sig lookback).filter (isWin closes)).length ≤
      (selectedSignals sig lookback).length := List.length_filter_le _ _
  refine ⟨?_, ?_, ?_, ?_, ?_⟩
  · intro h
    exact win_rate_core_zero closes sig lookback h
  · intro h
    exact win_rate_core_formula closes sig lookback h
  · by_cases h : (selectedSignals sig lookback).length = 0
    · rw [win_rate_core_zero closes sig lookback h]
    · have hpos : 0 < (selectedSignals sig lookback).length := Nat.pos_of_ne_zero h
      rw [win_rate_core_formula closes sig lookback hpos]
      apply round2_nonneg
      positivity
  · by_cases h : (selectedSignals sig lookback).length = 0
    · rw [win_rate_core_zero closes sig lookback h]
      norm_num
    · have hpos : 0 < (selectedSignals sig lookback).length := Nat.pos_of_ne_zero h
      rw [win_rate_core_formula closes sig lookback hpos]
      apply round2_le_hundred
      have hl : (0 : ℚ) < ((selectedSignals sig lookback).length : ℚ) := by
        exact_mod_cast hpos
      have hwq : (((selectedSignals sig lookback).filter (isWin closes)).length : ℚ) ≤
          ((selectedSignals sig lookback).length : ℚ) := by exact_mod_cast hw
      rw [div_le_iff₀ hl]
      linarith
  · intro p hp
    constructor
    · intro hL
      cases hx : closes[p.1 + 1]? with
      | none => simp [isWin, hx]
      | some np => simp [isWin, hx, hL]
    · intro hS
      cases hx : closes[p.1 + 1]? with
      | none => simp [isWin, hx]
      | some np => simp [isWin, hx, hS]

/-- Witness for C2 on a one-signal frame. -/
theorem win_rate_spec_witness :
    calculate_win_rate_core [1, 2] [some Sig.LONG, none] 5 =
      round2 (100 * (((selectedSignals [some Sig.LONG, none] 5).filter (isWin [1, 2])).length : ℚ) /
        (sample_size [some Sig.LONG, none] 5 : ℚ)) :=
  (win_rate_spec [1, 2] [some Sig.LONG, none] 5).2.1 (by decide)

/-- C3 counterexample: with closes 10, 11, 12 and LONG signals on rows 1 and
2, the signal on the last row is selected and counted in the denominator:
the sample has size 2 and the win rate is 50, where exclusion of the
last-row signal would give sample size 1 and win rate 100. -/
theorem last_bar_sample_cex :
    (2, Sig.LONG) ∈ selectedSignals [none, some Sig.LONG, some Sig.LONG] 10 ∧
    sample_size [none, some Sig.LONG, some Sig.LONG] 10 = 2 ∧
    calculate_win_rate_core [10, 11, 12] [none, some Sig.LONG, some Sig.LONG] 10 = 50 :=
  ⟨by decide, by decide, by with_unfolding_all decide⟩

/-- C3 as amended: a selected signal whose next bar does not exist can never
be counted as a win (the numerator excludes it), but it stays in the
denominator: the returned value divides by the full selected-sample size. -/
theorem last_bar_signal_scored_as_loss
    (closes : List ℚ) (sig : List (Option Sig)) (lookback : ℕ)
    (p : ℕ × Sig) (hp : p ∈ selectedSignals sig lookback)
    (hlast : closes[p.1 + 1]? = none) :
    isWin closes p = false ∧
    0 < sample_size sig lookback ∧
    calculate_win_rate_core closes sig lookback =
      round2 (100 * (((selectedSignals sig lookback).filter (isWin closes)).length : ℚ) /
        (sample_size sig lookback : ℚ)) := by
  have hpos : 0 < sample_size sig lookback :=
    List.length_pos.mpr (List.ne_nil_of_mem hp)
  exact ⟨isWin_of_no_next closes p hlast, hpos,
    win_rate_core_formula closes sig lookback hpos⟩

/-- Witness for the amended C3. -/
theorem last_bar_signal_scored_as_loss_witness :
    isWin [10, 11, 12] (2, Sig.LONG) = false :=
  (last_bar_signal_scored_as_loss [10, 11, 12] [none, some Sig.LONG, some Sig.LONG] 10
    (2, Sig.LONG) (by decide) (by decide)).1

/-! ### C9, C10: single fetch, window and sample bound -/

/-- C9: the backtest is a function of the one candle pull made before the
evaluation: any two candle sources that agree on the single requested window
of `lookback + 50` most recent candles give the same win rate, so nothing is
re-fetched mid-evaluation and equal candle data yields an equal result. -/
theorem win_rate_single_pull (f g : ℕ → List Candle) (lookback : ℕ)
    (h : f (lookback + 50) = g (lookback + 50)) :
    calculate_win_rate f lookback = calculate_win_rate g lookback := by
  unfold calculate_win_rate
  rw [h]

/-- Witness for C9: two oracles differing away from the requested window. -/
theorem win_rate_single_pull_witness :
    calculate_win_rate fetchA 100 = calculate_win_rate fetchB 100 :=
  win_rate_single_pull fetchA fetchB 100 (by decide)

/-- C10: the whole evaluation is computed from the fetched window of
`lookback + 50` most recent candles, and the scored sample never exceeds
`lookback` signals. -/
theorem win_rate_window_and_sample_bound :
    (∀ (f : ℕ → List Candle) (lookback : ℕ),
      calculate_win_rate f lookback = win_rate_of_candles (f (lookback + 50)) lookback) ∧
    ∀ (sig : List (Option Sig)) (lookback : ℕ), sample_size sig lookback ≤ lookback := by
  refine ⟨fun f lookback => rfl, fun sig lookback => ?_⟩
  show ((nonNullSignals sig).drop ((nonNullSignals sig).length - lookback)).length ≤ lookback
  rw [List.length_drop]
  omega

/-! ### C4, C5, C7: the trade plan -/

theorem pairwise_fst_lt_enumFrom {α : Type} (k : ℕ) (l : List α) :
    (List.enumFrom k l).Pairwise (fun p q => p.1 < q.1) := by
  induction l generalizing k with
  | nil => simp
  | cons a t ih =>
    rw [List.enumFrom_cons]
    refine List.Pairwise.cons ?_ (ih (k + 1))
    intro q hq
    have := List.le_fst_of_mem_enumFrom hq
    omega

theorem pairwise_fst_lt_nonNull (sig : List (Option Sig)) :
    (nonNullSignals sig).Pairwise (fun p q => p.1 < q.1) := by
  unfold nonNullSignals
  refine List.Pairwise.filterMap _ ?_ (pairwise_fst_lt_enumFrom 0 sig)
  intro a b hlt x hx y hy
  rw [Option.mem_def, Option.map_eq_some'] at hx hy
  obtain ⟨u, -, rfl⟩ := hx
  obtain ⟨v, -, rfl⟩ := hy
  exact hlt

theorem getLast_fst_max {l : List (ℕ × Sig)}
    (hp : l.Pairwise (fun p q => p.1 < q.1))
    {m : ℕ × Sig} (hl : l.getLast? = some m) : ∀ p ∈ l, p.1 ≤ m.1 := by
  induction l with
  | nil => cases hl
  | cons a t ih =>
    cases t with
    | nil =>
      simp only [List.getLast?_singleton, Option.some.injEq] at hl
      subst hl
      intro p hp2
      rcases List.mem_singleton.mp hp2 with rfl
      exact le_refl _
    | cons b t2 =>
      rw [List.getLast?_cons_cons] at hl
      intro p hpm
      rcases List.mem_cons.mp hpm with rfl | hmem
      · have hm : m ∈ b :: t2 :=
          List.mem_of_mem_getLast? (by rw [Option.mem_def]; exact hl)
        have := (List.pairwise_cons.mp hp).1 m hm
        omega
      · exact ih (List.pairwise_cons.mp hp).2 hl p hmem

theorem mem_nonNull_iff (sig : List (Option Sig)) (i : ℕ) (s : Sig) :
    (i, s) ∈ nonNullSignals sig ↔ sig[i]? = some (some s) := by
  unfold nonNullSignals
  rw [List.mem_filterMap]
  constructor
  · rintro ⟨⟨j, o⟩, hmem, hmap⟩
    rcases Option.map_eq_some'.mp hmap with ⟨t, ho, ht⟩
    injection ht with h1 h2
    subst h1
    subst h2
    subst ho
    exact List.mem_enum_iff_getElem?.mp hmem
  · intro h
    exact ⟨(i, some s), List.mem_enum_iff_getElem?.mpr h, rfl⟩

theorem getD_of_getElem? {α : Type} {l : List (Option α)} {i : ℕ} {x : Option α}
    (h : l[i]? = some x) : l.getD i none = x := by
  rw [List.getD_eq_getElem?_getD, h]
  rfl

/-- Unfolding of the plan builder at a located last signal. -/
theorem analyze_trend_core_eq (closes : List ℚ) (atrCol rsCol : List (Option ℚ))
    (sig : List (Option Sig)) (i : ℕ) (s : Sig)
    (hlast : (nonNullSignals sig).getLast? = some (i, s)) :
    analyze_trend_core closes atrCol rsCol sig =
      { signal := some s
        entry := some (closes.getD i 0)
        stop_loss := (atrCol.getD i none).map fun a =>
          closes.getD i 0 - a * (if s = Sig.LONG then 1 else -1)
        take_profit := (atrCol.getD i none).map fun a =>
          closes.getD i 0 + a * 2 * (if s = Sig.LONG then 1 else -1)
        rsi := rsCol.getD i none } := by
  unfold analyze_trend_core
  rw [hlast]

/-- C4: the plan is built from the most recent signalled bar — that bar holds
the signal, no later bar does — with entry that bar's close, momentum that
bar's RSI, and with stop loss one ATR against the position and take profit
two ATR with it; with no signalled bar at all, the no-trade dict comes back
instead of a failure. -/
theorem analyze_trend_plan (closes : List ℚ) (atrCol rsCol : List (Option ℚ))
    (sig : List (Option Sig)) :
    ((nonNullSignals sig).getLast? = none →
      analyze_trend_core closes atrCol rsCol sig = {}) ∧
    ∀ (i : ℕ) (s : Sig) (a : ℚ),
      (nonNullSignals sig).getLast? = some (i, s) →
      atrCol.getD i none = some a →
      sig.getD i none = some s ∧
      (∀ j, i < j → sig.getD j none = none) ∧
      (analyze_trend_core closes atrCol rsCol sig).signal = some s ∧
      (analyze_trend_core closes atrCol rsCol sig).entry = some (closes.getD i 0) ∧
      (analyze_trend_core closes atrCol rsCol sig).rsi = rsCol.getD i none ∧
      (s = Sig.LONG →
        (analyze_trend_core closes atrCol rsCol sig).stop_loss =
          some (closes.getD i 0 - a) ∧
        (analyze_trend_core closes atrCol rsCol sig).take_profit =
          some (closes.getD i 0 + 2 * a)) ∧
      (s = Sig.SHORT →
        (analyze_trend_core closes atrCol rsCol sig).stop_loss =
          some (closes.getD i 0 + a) ∧
        (analyze_trend_core closes atrCol rsCol sig).take_profit =
          some (closes.getD i 0 - 2 * a)) := by
  constructor
  · intro h
    unfold analyze_trend_core
    rw [h]
  · intro i s a hlast ha
    have hmem : (i, s) ∈ nonNullSignals sig :=
      List.mem_of_mem_getLast? (by rw [Option.mem_def]; exact hlast)
    have hidx : sig[i]? = some (some s) := (mem_nonNull_iff sig i s).mp hmem
    have hgd : sig.getD i none = some s := getD_of_getElem? hidx
    have hmax : ∀ p ∈ nonNullSignals sig, p.1 ≤ i :=
      getLast_fst_max (pairwise_fst_lt_nonNull sig) hlast
    have hnone : ∀ j, i < j → sig.getD j none = none := by
      intro j hij
      rw [List.getD_eq_getElem?_getD]
      cases hx : sig[j]? with
      | none => rfl
      | some o =>
        cases o with
        | none => rfl
        | some t =>
          exfalso
          have hmem2 : (j, t) ∈ nonNullSignals sig := (mem_nonNull_iff sig j t).mpr hx
          have := hmax (j, t) hmem2
          omega
    rw [analyze_trend_core_eq closes atrCol rsCol sig i s hlast, ha]
    refine ⟨hgd, hnone, rfl, rfl, rfl, ?_, ?_⟩
    · rintro rfl
      constructor
      · show some (closes.getD i 0 - a * 1) = some (closes.getD i 0 - a)
        congr 1
        ring
      · show some (closes.getD i 0 + a * 2 * 1) = some (closes.getD i 0 + 2 * a)
        congr 1
        ring
    · rintro rfl
      constructor
      · show some (closes.getD i 0 - a * -1) = some (closes.getD i 0 + a)
        congr 1
        ring
      · show some (closes.getD i 0 + a * 2 * -1) = some (closes.getD i 0 - 2 * a)
        congr 1
        ring

/-- Witness for C4 at a concrete frame with one LONG signal. -/
theorem analyze_trend_plan_witness :
    (analyze_trend_core [5, 6] [none, some 2] [none, some 40]
        [none, some Sig.LONG]).stop_loss =
      some (([5, 6] : List ℚ).getD 1 0 - 2) :=
  (((analyze_trend_plan [5, 6] [none, some 2] [none, some 40] [none, some Sig.LONG]).2
      1 Sig.LONG 2 (by decide) (by decide)).2.2.2.2.2.1 rfl).1

/-- C5 counterexample: with ATR 0 at the signalled bar (the data model only
promises ATR nonnegative) the plan has direction LONG but its price levels
collapse: stop loss = entry = take profit, so the strict ordering fails. -/
theorem plan_levels_cex :
    (analyze_trend_core [1] [some 0] [some 50] [some Sig.LONG]).signal = some Sig.LONG ∧
    (analyze_trend_core [1] [some 0] [some 50] [some Sig.LONG]).stop_loss =
      (analyze_trend_core [1] [some 0] [some 50] [some Sig.LONG]).entry ∧
    (analyze_trend_core [1] [some 0] [some 50] [some Sig.LONG]).take_profit =
      (analyze_trend_core [1] [some 0] [some 50] [some Sig.LONG]).entry := by
  refine ⟨?_, ?_, ?_⟩ <;> with_unfolding_all decide

/-- C5 as amended: when the ATR at the chosen bar is strictly positive, the
levels are strictly ordered: stop loss below entry below take profit for
LONG, and take profit below entry below stop loss for SHORT. -/
theorem plan_levels_ordered (closes : List ℚ) (atrCol rsCol : List (Option ℚ))
    (sig : List (Option Sig)) (i : ℕ) (s : Sig) (a : ℚ)
    (hlast : (nonNullSignals sig).getLast? = some (i, s))
    (ha : atrCol.getD i none = some a) (hpos : 0 < a) :
    (s = Sig.LONG →
      (analyze_trend_core closes atrCol rsCol sig).stop_loss =
        some (closes.getD i 0 - a) ∧
      (analyze_trend_core closes atrCol rsCol sig).entry = some (closes.getD i 0) ∧
      (analyze_trend_core closes atrCol rsCol sig).take_profit =
        some (closes.getD i 0 + 2 * a) ∧
      closes.getD i 0 - a < closes.getD i 0 ∧
      closes.getD i 0 < closes.getD i 0 + 2 * a) ∧
    (s = Sig.SHORT →
      (analyze_trend_core closes atrCol rsCol sig).take_profit =
        some (closes.getD i 0 - 2 * a) ∧
      (analyze_trend_core closes atrCol rsCol sig).entry = some (closes.getD i 0) ∧
      (analyze_trend_core closes atrCol rsCol sig).stop_loss =
        some (closes.getD i 0 + a) ∧
      closes.getD i 0 - 2 * a < closes.getD i 0 ∧
      closes.getD i 0 < closes.getD i 0 + a) := by
  rw [analyze_trend_core_eq closes atrCol rsCol sig i s hlast, ha]
  constructor
  · rintro rfl
    refine ⟨?_, rfl, ?_, by linarith, by linarith⟩
    · show some (closes.getD i 0 - a * 1) = some (closes.getD i 0 - a)
      congr 1
      ring
    · show some (closes.getD i 0 + a * 2 * 1) = some (closes.getD i 0 + 2 * a)
      congr 1
      ring
  · rintro rfl
    refine ⟨?_, rfl, ?_, by linarith, by linarith⟩
    · show some (closes.getD i 0 + a * 2 * -1) = some (closes.getD i 0 - 2 * a)
      congr 1
      ring
    · show some (closes.getD i 0 - a * -1) = some (closes.getD i 0 + a)
      congr 1
      ring

/-- Witness for the amended C5. -/
theorem plan_levels_ordered_witness :
    ([5, 6] : List ℚ).getD 1 0 - 2 < ([5, 6] : List ℚ).getD 1 0 :=
  ((plan_levels_ordered [5, 6] [none, some 2] [none, some 40] [none, some Sig.LONG]
      1 Sig.LONG 2 (by decide) (by decide) (by norm_num)).1 rfl).2.2.2.1

/-- C7 counterexample: a frame whose signalled bar has an undefined ATR —
the builder raises nothing: it returns a plan with direction LONG, the entry
set, and NaN (undefined) stop loss and take profit. -/
theorem plan_missing_atr_cex :
    analyze_trend_core [1] [none] [some 50] [some Sig.LONG] =
      { signal := some Sig.LONG, entry := some 1, stop_loss := none,
        take_profit := none, rsi := some 50 } := by
  with_unfolding_all decide

/-- C7 as amended: with the ATR undefined at the chosen bar, the builder
still returns the plan — direction and entry set, stop loss and take profit
undefined (the NaN propagates), never a zero-defaulted level. -/
theorem plan_missing_atr (closes : List ℚ) (atrCol rsCol : List (Option ℚ))
    (sig : List (Option Sig)) (i : ℕ) (s : Sig)
    (hlast : (nonNullSignals sig).getLast? = some (i, s))
    (ha : atrCol.getD i none = none) :
    (analyze_trend_core closes atrCol rsCol sig).signal = some s ∧
    (analyze_trend_core closes atrCol rsCol sig).entry = some (closes.getD i 0) ∧
    (analyze_trend_core closes atrCol rsCol sig).stop_loss = none ∧
    (analyze_trend_core closes atrCol rsCol sig).take_profit = none := by
  rw [analyze_trend_core_eq closes atrCol rsCol sig i s hlast, ha]
  exact ⟨rfl, rfl, rfl, rfl⟩

/-- Witness for the amended C7. -/
theorem plan_missing_atr_witness :
    (analyze_trend_core [1] [none] [some 50] [some Sig.LONG]).stop_loss = none :=
  (plan_missing_atr [1] [none] [some 50] [some Sig.LONG] 0 Sig.LONG
    (by decide) rfl).2.2.1

/-! ### C6: short candle series -/

theorem emaAt_eq_none (closes : List ℚ) {period i : ℕ} (hp : 1 < period)
    (h : i + 1 < period) : emaAt period closes i = none := by
  cases i with
  | zero =>
    rw [emaAt]
    exact if_neg (by omega)
  | succ j =>
    rw [emaAt]
    exact if_pos (by omega)

theorem emaList_short_all_none (closes : List ℚ) {period : ℕ} (hp : 1 < period)
    (h : closes.length < period) : ∀ x ∈ emaList period closes, x = none := by
  intro x hx
  unfold emaList at hx
  rcases List.mem_map.mp hx with ⟨i, hi, rfl⟩
  have hilt : i < closes.length := List.mem_range.mp hi
  exact emaAt_eq_none closes hp (by omega)

theorem getElem?_getD_none {α : Type} {l : List (Option α)}
    (h : ∀ x ∈ l, x = none) (j : ℕ) : l[j]?.getD none = none := by
  cases hx : l[j]? with
  | none => rfl
  | some x =>
    have hxn := h x (List.getElem?_mem hx)
    simp [hxn]

theorem getD_none_of_all_none {α : Type} {l : List (Option α)}
    (h : ∀ x ∈ l, x = none) (j : ℕ) : l.getD j none = none := by
  rw [List.getD_eq_getElem?_getD]
  exact getElem?_getD_none h j

theorem sigAt_none_of_es_none (ef es rs : List (Option ℚ))
    (hes : ∀ x ∈ es, x = none) (i : ℕ) : sigAt ef es rs i = none := by
  unfold sigAt
  by_cases h0 : i = 0
  · rw [if_pos h0]
  · rw [if_neg h0]
    simp [getElem?_getD_none hes, oLT_none_right, oLT_none_left]

/-- C6: on any frame with fewer than 30 candles (the slow-EMA lookback), the
pipeline completes and returns a frame whose slow-EMA column is undefined at
every row (never a substituted zero) and whose signal column labels every row
`None`, one label per candle. -/
theorem short_series_all_none (df : DF) (h : df.candles.length < 30) :
    (∀ x ∈ (generate_signals df).EMA_slow.getD [], x = none) ∧
    (∀ s ∈ (generate_signals df).signal.getD [], s = none) ∧
    ((generate_signals df).signal.getD []).length = df.candles.length := by
  have hlen : (df.candles.map Candle.close).length = df.candles.length :=
    List.length_map _ _
  have hes : ∀ x ∈ emaList 30 (df.candles.map Candle.close), x = none :=
    emaList_short_all_none _ (by omega) (by rw [hlen]; exact h)
  refine ⟨hes, ?_, ?_⟩
  · show ∀ s ∈ signalColumn (emaList 10 (df.candles.map Candle.close))
      (emaList 30 (df.candles.map Candle.close))
      (rsiList 14 (df.candles.map Candle.close))
      (df.candles.map Candle.close).length, s = none
    intro s hs
    rcases List.mem_map.mp hs with ⟨i, -, rfl⟩
    exact sigAt_none_of_es_none _ _ _ hes i
  · show (signalColumn (emaList 10 (df.candles.map Candle.close))
      (emaList 30 (df.candles.map Candle.close))
      (rsiList 14 (df.candles.map Candle.close))
      (df.candles.map Candle.close).length).length = df.candles.length
    simp [signalColumn, hlen]

/-- Witness for C6 on a one-candle frame. -/
theorem short_series_all_none_witness :
    ((generate_signals dfOne).signal.getD []).length = dfOne.candles.length :=
  (short_series_all_none dfOne (by decide)).2.2

/-! ### C8: the frame is mutated in place, candles preserved -/

/-- C8 counterexample: `generate_signals` has a side effect on its argument —
the returned frame is the caller frame with indicator and signal columns set
in place, and it differs from the frame that was passed in (already on a
one-candle frame), so the caller frame is not unchanged and the result is
not a fresh value. -/
theorem generate_signals_mutates_cex : generate_signals dfOne ≠ dfOne := by
  decide

/-- C8 as amended: the candle columns of the caller frame are untouched by
`generate_signals`; only the indicator and signal columns are written. -/
theorem generate_signals_preserves_candles (df : DF) :
    (generate_signals df).candles = df.candles := rfl

end CryptoBot
